import Mathlib

/-!
Verification of the side-pot settlement engine in `sidepot.py`.

The embedding below translates the Python source directly:
* chip amounts are `Int` (Python integers), player indices are `Nat`;
* Python's floor division `//` is `Int.fdiv` (wrapped as `pydiv`);
* a run's `HandRanking` (`Dict[int, Set[int]]` with consecutive tier keys
  `0..T-1`) is a `List (List Nat)`: tiers best-first, each tier a list of
  player indices in its Python-set iteration order;
* mutation of `self.entitled_chips` / `self.entitled_chips_per_run` is
  explicit state passing.
-/

/-- Python's floor division `a // b` on integers (rounds toward negative
infinity). -/
def pydiv (a b : Int) : Int := Int.fdiv a b

/-- The `Pot` object of `sidepot.py` (constructor fields, lines 4-11). -/
structure Pot where
  amount : Int
  num_players : Nat
  num_runs : Nat
  players_eligible : Finset Nat
  is_sidepot : Bool
  entitled_chips : List Int
  entitled_chips_per_run : List (List Int)
deriving DecidableEq

/-- Constructor `Pot.__init__` (lines 4-11): the two entitlement accumulators start at
zero. -/
def mkPot (amount : Int) (num_players num_runs : Nat) (players_eligible : Finset Nat)
    (is_sidepot : Bool) : Pot :=
  { amount := amount
    num_players := num_players
    num_runs := num_runs
    players_eligible := players_eligible
    is_sidepot := is_sidepot
    entitled_chips := List.replicate num_players 0
    entitled_chips_per_run := List.replicate num_runs (List.replicate num_players 0) }

/-- The cascading division loop of `Pot.distribute`:
`for i in range(n): out[i] = amount // (n - i); amount -= amount // (n - i)`
(lines 58-60, and the same pattern over `entitled_ids` at lines 72-76).
The first argument is the remaining amount, the second the number of
shares still to produce (the divisor counts down to 1). -/
def cascade : Int → Nat → List Int
  | _, 0 => []
  | amount, n + 1 => pydiv amount (n + 1) :: cascade (amount - pydiv amount (n + 1)) n

/-- Embedding of `xs[i] += x` on a Python list. (For `i` out of range Python raises
IndexError; here `List.set` leaves the list unchanged — that case is
unreachable from the verified call sites, where indices are below the
list length.) -/
def bump (xs : List Int) (i : Nat) (x : Int) : List Int :=
  xs.set i (xs.getD i 0 + x)

/-- The chop loop of `Pot.distribute` (lines 72-76): winner `j` of
`ids` — in the iteration order of `entitled_ids` — receives share
`chips // (len(ids) - j)`; the shares list is `cascade chips ids.length`. -/
def addChips (xs : List Int) (ids : List Nat) (shares : List Int) : List Int :=
  (ids.zip shares).foldl (fun acc p => bump acc p.1 p.2) xs

/-- The tier-scanning loop of `Pot.distribute` for a single run
(lines 67-76): walk tiers best-first; `if not chips: break`; at the
first tier whose members intersect `players_eligible`, run the chop loop
on both the total accumulator `entitled` and this run's row `row`, and
decrement `chips` by the amount handed out. -/
def distributeRun (eligible : Finset Nat) (entitled row : List Int) (chips : Int)
    : List (List Nat) → List Int × List Int
  | [] => (entitled, row)
  | t :: rest =>
    if chips = 0 then (entitled, row)
    else
      let ids := t.filter (fun id => decide (id ∈ eligible))
      if ids.isEmpty then distributeRun eligible entitled row chips rest
      else
        let shares := cascade chips ids.length
        distributeRun eligible (addChips entitled ids shares) (addChips row ids shares)
          (chips - shares.sum) rest

/-- The outer run loop of `Pot.distribute` (lines 63-76): run `k`
consumes `chips_each_run[k]` and updates row `k` of
`entitled_chips_per_run`. The two truncation branches are unreachable at
the verified call sites, where the shares list and the per-run rows both
have one entry per run. -/
def distributeRuns (eligible : Finset Nat)
    : List (List (List Nat)) → List Int → List Int → List (List Int) → List Int × List (List Int)
  | [], _, entitled, perRun => (entitled, perRun)
  | _ :: _, [], entitled, perRun => (entitled, perRun)
  | _ :: _, _ :: _, entitled, [] => (entitled, [])
  | run :: rest, c :: cs, entitled, row :: rows =>
    let res := distributeRun eligible entitled row c run
    let res2 := distributeRuns eligible rest cs res.1 rows
    (res2.1, res.2 :: res2.2)

/-- Method `Pot.distribute` (lines 41-78): split the amount over the runs with
the cascading division, then resolve each run; returns the updated pot
(the mutated `self`) together with the returned list
`self.entitled_chips`. -/
def Pot.distribute (p : Pot) (run_results : List (List (List Nat))) : Pot × List Int :=
  let chips_each_run := cascade p.amount run_results.length
  let res := distributeRuns p.players_eligible run_results chips_each_run
      p.entitled_chips p.entitled_chips_per_run
  ({ p with entitled_chips := res.1, entitled_chips_per_run := res.2 }, res.1)

/-- Line 170: `sorted(enumerate-like pairs, key=stack)` — stable sort of
`(player_index, stack)` pairs by stack ascending. -/
def sortedByStack (player_stacks : List Int) : List (Nat × Int) :=
  player_stacks.enum.mergeSort (fun a b => decide (a.2 ≤ b.2))

/-- Lines 179 and 189:
`[(e[0], e[1] - m) for e in ps if e[1] - m > 0]`
(the comprehension's guard `e[1] - m > 0` is written as `m < e.2`). -/
def subtractAndFilter (m : Int) (ps : List (Nat × Int)) : List (Nat × Int) :=
  (ps.filter (fun e => decide (m < e.2))).map (fun e => (e.1, e.2 - m))

/-- The side-pot loop of `_allocate_pot` (lines 182-189): while more than
one stack remains, emit a side pot sized `shortest * count` for the
current players, then subtract the shortest stack and drop emptied
players. Returns the emitted pots and the final remaining player_stacks. -/
def sidePots (np nr : Nat) : List (Nat × Int) → List Pot × List (Nat × Int)
  | [] => ([], [])
  | [p] => ([], [p])
  | p :: q :: rest =>
    let pot := mkPot (p.2 * ((p :: q :: rest).length : Int)) np nr
      ((p :: q :: rest).map Prod.fst).toFinset true
    let next := sidePots np nr (subtractAndFilter p.2 (p :: q :: rest))
    (pot :: next.1, next.2)
termination_by ps => ps.length
decreasing_by
  simp only [subtractAndFilter, List.length_map, List.filter_cons, lt_irrefl,
    decide_False, Bool.false_eq_true, if_false, List.length_cons]
  have h := List.length_filter_le (fun e => decide (p.2 < e.2)) rest
  split <;> (try simp only [List.length_cons]) <;> omega

/-- Method `_allocate_pot` (lines 161-190): main pot
`money_in_pot + smallest_stack * num_players`, eligible to
`set(range(num_players))`; then the side-pot loop on the reduced player_stacks.
Returns `(self.pots, remaining_stacks)`. (With zero players Python would
raise IndexError at `sorted_players[0]`; the empty branch is unreachable
under the verified preconditions.) -/
def allocatePots (player_stacks : List Int) (money : Int) (nr : Nat) : List Pot × List (Nat × Int) :=
  let np := player_stacks.length
  match sortedByStack player_stacks with
  | [] => ([], [])
  | p0 :: tail =>
    let mainPot := mkPot (money + p0.2 * (np : Int)) np nr (Finset.range np) false
    let remaining := subtractAndFilter p0.2 (p0 :: tail)
    let side := sidePots np nr remaining
    (mainPot :: side.1, side.2)

/-- Pointwise list addition: embeds
`for pid in range(num_players): resultant_stack[pid] += distribution[pid]`
(lines 222-223; both lists have length `num_players` at the call site). -/
def vadd (a b : List Int) : List Int := List.zipWith (· + ·) a b

/-- Method `SidePotCalculator.calculate` (lines 205-224): allocate the pots, add
each leftover `(player, stack)` pair to the result, then distribute every
pot and accumulate its entitlement list. `num_players = len(player_stacks)` and
`num_runs = len(run_results)`, as `_collect_data` establishes. -/
def calculate (player_stacks : List Int) (money : Int)
    (run_results : List (List (List Nat))) : List Int :=
  let np := player_stacks.length
  let alloc := allocatePots player_stacks money run_results.length
  let afterLeftovers := alloc.2.foldl (fun r e => bump r e.1 e.2) (List.replicate np 0)
  alloc.1.foldl (fun r pot => vadd r (pot.distribute run_results).2) afterLeftovers

/-- A `HandRanking` that is a total partition of the players `[0, n)`
into ordered tiers: every tier non-empty, duplicate-free and in range,
and every player in exactly one tier. -/
def ValidRanking (n : Nat) (run : List (List Nat)) : Prop :=
  (∀ t ∈ run, t ≠ [] ∧ t.Nodup ∧ ∀ i ∈ t, i < n) ∧
  (∀ i < n, run.countP (fun t => decide (i ∈ t)) = 1)

instance (n : Nat) (run : List (List Nat)) : Decidable (ValidRanking n run) := by
  unfold ValidRanking
  infer_instance

/-! ### Basic lemmas about the cascading division -/

lemma pydiv_eq_ediv (a b : Int) (h : 0 ≤ b) : pydiv a b = a / b := Int.fdiv_eq_ediv a h

lemma cascade_length (a : Int) (n : Nat) : (cascade a n).length = n := by
  induction n generalizing a with
  | zero => rfl
  | succ k ih => simp [cascade, ih]

lemma cascade_sum (a : Int) (n : Nat) (h : 1 ≤ n) : (cascade a n).sum = a := by
  induction n generalizing a with
  | zero => omega
  | succ k ih =>
    cases k with
    | zero =>
      show (pydiv a _ :: cascade _ 0).sum = a
      simp [cascade, pydiv]
    | succ m =>
      show (pydiv a _ :: cascade (a - pydiv a _) (m + 1)).sum = a
      rw [List.sum_cons, ih _ (by omega)]
      ring

lemma pydiv_le_next (a b : Int) (hb : 1 ≤ b) :
    pydiv a (b + 1) ≤ pydiv (a - pydiv a (b + 1)) b := by
  have hb1 : (0 : Int) < b := by omega
  have hb2 : (0 : Int) < b + 1 := by omega
  rw [pydiv_eq_ediv _ _ (le_of_lt hb2), pydiv_eq_ediv _ _ (le_of_lt hb1)]
  rw [Int.le_ediv_iff_mul_le hb1]
  have h := Int.ediv_mul_le a (ne_of_gt hb2)
  have e : a / (b + 1) * b = a / (b + 1) * (b + 1) - a / (b + 1) := by ring
  linarith

/-- The cascading shares are non-decreasing: any indivisible remainder is
pushed toward the LATER positions. -/
lemma cascade_chain (a : Int) (n : Nat) : List.Chain' (· ≤ ·) (cascade a n) := by
  induction n generalizing a with
  | zero => simp [cascade]
  | succ k ih =>
    cases k with
    | zero => simp [cascade]
    | succ m =>
      show List.Chain' (· ≤ ·) (pydiv a _ :: cascade (a - pydiv a _) (m + 1))
      have htail := ih (a - pydiv a ((m : Int) + 1 + 1))
      show List.Chain' (· ≤ ·)
        (pydiv a ((m : Int) + 1 + 1) ::
          pydiv (a - pydiv a ((m : Int) + 1 + 1)) ((m : Int) + 1) ::
          cascade _ m)
      rw [List.chain'_cons]
      constructor
      · exact pydiv_le_next a ((m : Int) + 1) (by omega)
      · exact htail

/-! ### Lemmas about the accumulator updates -/

lemma bump_length (xs : List Int) (i : Nat) (x : Int) : (bump xs i x).length = xs.length :=
  List.length_set xs i _

lemma bump_sum (xs : List Int) (i : Nat) (x : Int) (h : i < xs.length) :
    (bump xs i x).sum = xs.sum + x := by
  induction xs generalizing i with
  | nil => simp at h
  | cons a t ih =>
    cases i with
    | zero =>
      show ((a + x) :: t).sum = (a :: t).sum + x
      simp [List.sum_cons]
      ring
    | succ j =>
      have e : bump (a :: t) (j + 1) x = a :: bump t j x := by
        simp [bump, List.getD_cons_succ]
      rw [e, List.sum_cons, List.sum_cons, ih j (by simpa using h)]
      ring

lemma addChips_cons (xs : List Int) (i : Nat) (it : List Nat) (s : Int) (st : List Int) :
    addChips xs (i :: it) (s :: st) = addChips (bump xs i s) it st := rfl

lemma addChips_length (xs : List Int) (ids : List Nat) (shares : List Int) :
    (addChips xs ids shares).length = xs.length := by
  induction ids generalizing xs shares with
  | nil => rfl
  | cons i it ih =>
    cases shares with
    | nil => rfl
    | cons s st => rw [addChips_cons, ih, bump_length]

lemma addChips_sum (xs : List Int) (ids : List Nat) (shares : List Int)
    (h : ∀ id ∈ ids, id < xs.length) (hlen : ids.length = shares.length) :
    (addChips xs ids shares).sum = xs.sum + shares.sum := by
  induction ids generalizing xs shares with
  | nil =>
    cases shares with
    | nil => simp [addChips]
    | cons s st => simp at hlen
  | cons i it ih =>
    cases shares with
    | nil => simp at hlen
    | cons s st =>
      rw [addChips_cons,
        ih (bump xs i s) st
          (fun id hid => by rw [bump_length]; exact h id (List.mem_cons_of_mem _ hid))
          (by simpa using hlen),
        bump_sum xs i s (h i (List.mem_cons_self i it)), List.sum_cons]
      ring

/-! ### Lemmas about the tier-scanning loop -/

lemma distributeRun_nil (elig : Finset Nat) (e row : List Int) (chips : Int) :
    distributeRun elig e row chips [] = (e, row) := rfl

lemma distributeRun_cons (elig : Finset Nat) (e row : List Int) (chips : Int)
    (t : List Nat) (rest : List (List Nat)) :
    distributeRun elig e row chips (t :: rest) =
      if chips = 0 then (e, row)
      else
        let ids := t.filter (fun id => decide (id ∈ elig))
        if ids.isEmpty then distributeRun elig e row chips rest
        else
          let shares := cascade chips ids.length
          distributeRun elig (addChips e ids shares) (addChips row ids shares)
            (chips - shares.sum) rest := rfl

lemma distributeRun_zero (elig : Finset Nat) (e row : List Int) (tiers : List (List Nat)) :
    distributeRun elig e row 0 tiers = (e, row) := by
  cases tiers with
  | nil => rfl
  | cons t rest => rw [distributeRun_cons, if_pos rfl]

lemma distributeRun_fst_length (elig : Finset Nat) (e row : List Int) (chips : Int)
    (tiers : List (List Nat)) :
    (distributeRun elig e row chips tiers).1.length = e.length := by
  induction tiers generalizing e row chips with
  | nil => rfl
  | cons t rest ih =>
    rw [distributeRun_cons]
    by_cases hz : chips = 0
    · rw [if_pos hz]
    · rw [if_neg hz]
      dsimp only
      by_cases hids : (t.filter (fun id => decide (id ∈ elig))).isEmpty
      · rw [if_pos hids]; exact ih e row chips
      · rw [if_neg hids, ih, addChips_length]

lemma distributeRun_fst_sum (elig : Finset Nat) (e row : List Int) (chips : Int)
    (tiers : List (List Nat))
    (hE : ∀ i ∈ elig, i < e.length)
    (hw : (∃ t ∈ tiers, ∃ id ∈ t, id ∈ elig) ∨ chips = 0) :
    (distributeRun elig e row chips tiers).1.sum = e.sum + chips := by
  induction tiers generalizing e row chips with
  | nil =>
    rcases hw with ⟨t, ht, _⟩ | hz
    · exact absurd ht (List.not_mem_nil t)
    · rw [hz, distributeRun_nil]; ring
  | cons t rest ih =>
    by_cases hz : chips = 0
    · rw [hz, distributeRun_zero]; ring
    · rw [distributeRun_cons, if_neg hz]
      dsimp only
      by_cases hids : (t.filter (fun id => decide (id ∈ elig))).isEmpty
      · rw [if_pos hids]
        apply ih e row chips hE
        rcases hw with ⟨t', ht', id, hid, hmem⟩ | hz'
        · rcases List.mem_cons.mp ht' with h1 | h2
          · exfalso
            rw [List.isEmpty_iff, List.filter_eq_nil_iff] at hids
            exact hids id (h1 ▸ hid) (by simpa using hmem)
          · exact Or.inl ⟨t', h2, id, hid, hmem⟩
        · exact absurd hz' hz
      · rw [if_neg hids]
        have hne : t.filter (fun id => decide (id ∈ elig)) ≠ [] := by
          simpa [List.isEmpty_iff] using hids
        have hlen1 : 1 ≤ (t.filter (fun id => decide (id ∈ elig))).length :=
          List.length_pos.mpr hne
        have hsum : (cascade chips (t.filter (fun id => decide (id ∈ elig))).length).sum
            = chips := cascade_sum _ _ hlen1
        rw [ih _ _ _
          (fun i hi => by rw [addChips_length]; exact hE i hi)
          (Or.inr (by rw [hsum]; ring))]
        rw [addChips_sum _ _ _
          (fun id hid => hE id (by simpa using (List.mem_filter.mp hid).2))
          (cascade_length chips _).symm]
        rw [hsum]
        ring

/-- With no eligible player in any tier, the scan falls off the end and
changes nothing: the chips for the run are silently dropped. -/
lemma distributeRun_noEligible (elig : Finset Nat) (e row : List Int) (chips : Int)
    (tiers : List (List Nat))
    (h : ∀ t ∈ tiers, ∀ id ∈ t, id ∉ elig) :
    distributeRun elig e row chips tiers = (e, row) := by
  induction tiers generalizing e row chips with
  | nil => rfl
  | cons t rest ih =>
    rw [distributeRun_cons]
    by_cases hz : chips = 0
    · rw [if_pos hz]
    · rw [if_neg hz]
      dsimp only
      have hids : (t.filter (fun id => decide (id ∈ elig))).isEmpty := by
        rw [List.isEmpty_iff, List.filter_eq_nil_iff]
        intro id hid
        simpa using h t (List.mem_cons_self t rest) id hid
      rw [if_pos hids]
      exact ih e row chips (fun t' ht' => h t' (List.mem_cons_of_mem t ht'))

/-! ### Lemmas about the outer run loop -/

lemma distributeRuns_nil (elig : Finset Nat) (shares e : List Int) (perRun : List (List Int)) :
    distributeRuns elig [] shares e perRun = (e, perRun) := rfl

lemma distributeRuns_cons (elig : Finset Nat) (run : List (List Nat))
    (rest : List (List (List Nat))) (c : Int) (cs : List Int) (e : List Int)
    (row : List Int) (rows : List (List Int)) :
    distributeRuns elig (run :: rest) (c :: cs) e (row :: rows) =
      ((distributeRuns elig rest cs (distributeRun elig e row c run).1 rows).1,
        (distributeRun elig e row c run).2 ::
          (distributeRuns elig rest cs (distributeRun elig e row c run).1 rows).2) := rfl

lemma distributeRuns_fst_length (elig : Finset Nat) (runs : List (List (List Nat)))
    (shares e : List Int) (perRun : List (List Int)) :
    (distributeRuns elig runs shares e perRun).1.length = e.length := by
  induction runs generalizing shares e perRun with
  | nil => rfl
  | cons run rest ih =>
    cases shares with
    | nil => rfl
    | cons c cs =>
      cases perRun with
      | nil => rfl
      | cons row rows =>
        rw [distributeRuns_cons]
        dsimp only
        rw [ih, distributeRun_fst_length]

lemma distributeRuns_fst_sum (elig : Finset Nat) (runs : List (List (List Nat)))
    (shares e : List Int) (perRun : List (List Int))
    (hE : ∀ i ∈ elig, i < e.length)
    (hs : shares.length = runs.length) (hp : perRun.length = runs.length)
    (hcov : ∀ run ∈ runs, ∃ t ∈ run, ∃ id ∈ t, id ∈ elig) :
    (distributeRuns elig runs shares e perRun).1.sum = e.sum + shares.sum := by
  induction runs generalizing shares e perRun with
  | nil =>
    cases shares with
    | nil => simp [distributeRuns_nil]
    | cons c cs => simp at hs
  | cons run rest ih =>
    cases shares with
    | nil => simp at hs
    | cons c cs =>
      cases perRun with
      | nil => simp at hp
      | cons row rows =>
        rw [distributeRuns_cons]
        dsimp only
        rw [ih cs _ rows
          (fun i hi => by rw [distributeRun_fst_length]; exact hE i hi)
          (by simpa using hs) (by simpa using hp)
          (fun r hr => hcov r (List.mem_cons_of_mem run hr))]
        rw [distributeRun_fst_sum elig e row c run hE
          (Or.inl (hcov run (List.mem_cons_self run rest)))]
        rw [List.sum_cons]
        ring

/-- Conservation at the level of one pot: when every run's ranking
contains at least one eligible player and the accumulators have the
shapes `Pot.__init__` gives them, `Pot.distribute` hands out exactly
`amount` chips on top of whatever the accumulator already held. -/
lemma Pot.distribute_fst_sum (p : Pot) (rr : List (List (List Nat)))
    (hE : ∀ i ∈ p.players_eligible, i < p.entitled_chips.length)
    (hp : p.entitled_chips_per_run.length = rr.length)
    (hr : 1 ≤ rr.length)
    (hcov : ∀ run ∈ rr, ∃ t ∈ run, ∃ id ∈ t, id ∈ p.players_eligible) :
    ((p.distribute rr).2).sum = p.entitled_chips.sum + p.amount := by
  show (distributeRuns p.players_eligible rr (cascade p.amount rr.length)
      p.entitled_chips p.entitled_chips_per_run).1.sum = _
  rw [distributeRuns_fst_sum p.players_eligible rr _ _ _ hE (cascade_length _ _) hp hcov]
  rw [cascade_sum _ _ hr]

lemma Pot.distribute_snd_length (p : Pot) (rr : List (List (List Nat))) :
    ((p.distribute rr).2).length = p.entitled_chips.length :=
  distributeRuns_fst_length _ _ _ _ _

/-! ### Lemmas about the stack-reduction step -/

/-- Total chips in a list of `(player, stack)` pairs. -/
def stackSum (ps : List (Nat × Int)) : Int := (ps.map Prod.snd).sum

/-- Total amount over a list of pots. -/
def potSum (pots : List Pot) : Int := (pots.map Pot.amount).sum

lemma subtractAndFilter_snd_pos (m : Int) (ps : List (Nat × Int)) :
    ∀ e ∈ subtractAndFilter m ps, 0 < e.2 := by
  intro e he
  obtain ⟨e', he', rfl⟩ := List.mem_map.mp he
  have := (List.mem_filter.mp he').2
  simp only [decide_eq_true_eq] at this
  simpa using this

lemma subtractAndFilter_fst_sublist (m : Int) (ps : List (Nat × Int)) :
    ((subtractAndFilter m ps).map Prod.fst).Sublist (ps.map Prod.fst) := by
  unfold subtractAndFilter
  rw [List.map_map]
  exact List.Sublist.map Prod.fst (List.filter_sublist ps)

lemma subtractAndFilter_mem_fst (m : Int) (ps : List (Nat × Int)) :
    ∀ e ∈ subtractAndFilter m ps, e.1 ∈ ps.map Prod.fst := by
  intro e he
  exact (subtractAndFilter_fst_sublist m ps).mem (List.mem_map_of_mem Prod.fst he)

lemma subtractAndFilter_cons_head (e : Nat × Int) (t : List (Nat × Int)) :
    subtractAndFilter e.2 (e :: t) = subtractAndFilter e.2 t := by
  unfold subtractAndFilter
  rw [List.filter_cons]
  simp

lemma subtractAndFilter_pairwise (m : Int) (ps : List (Nat × Int))
    (h : ps.Pairwise (fun a b => a.2 ≤ b.2)) :
    (subtractAndFilter m ps).Pairwise (fun a b => a.2 ≤ b.2) := by
  unfold subtractAndFilter
  rw [List.pairwise_map]
  have h2 := List.Pairwise.sublist
    (@List.filter_sublist (Nat × Int) (fun e => decide (m < e.2)) ps) h
  exact h2.imp (fun hab => by simpa using sub_le_sub_right hab m)

lemma subtractAndFilter_sum (m : Int) (ps : List (Nat × Int))
    (h : ∀ e ∈ ps, m ≤ e.2) :
    stackSum (subtractAndFilter m ps) = stackSum ps - m * ps.length := by
  induction ps with
  | nil => simp [subtractAndFilter, stackSum]
  | cons e t ih =>
    have ht : ∀ x ∈ t, m ≤ x.2 := fun x hx => h x (List.mem_cons_of_mem e hx)
    unfold subtractAndFilter at *
    rw [List.filter_cons]
    by_cases hlt : m < e.2
    · rw [if_pos (by simpa using hlt)]
      simp only [List.map_cons, stackSum, List.sum_cons, List.length_cons] at *
      rw [ih ht]
      push_cast
      ring
    · have heq : e.2 = m := le_antisymm (not_lt.mp hlt) (h e (List.mem_cons_self e t))
      rw [if_neg (by simpa using hlt)]
      simp only [stackSum, List.map_cons, List.sum_cons, List.length_cons] at *
      rw [ih ht, heq]
      push_cast
      ring

/-- In a list pairwise-sorted ascending by stack, the head's stack is a
lower bound for every element. -/
lemma pairwise_head_le (p : Nat × Int) (t : List (Nat × Int))
    (h : (p :: t).Pairwise (fun a b => a.2 ≤ b.2)) :
    ∀ e ∈ p :: t, p.2 ≤ e.2 := by
  intro e he
  rcases List.mem_cons.mp he with rfl | he'
  · exact le_refl _
  · exact (List.pairwise_cons.mp h).1 e he'

/-! ### Invariants of the side-pot loop -/

@[simp] lemma mkPot_amount (a : Int) (np nr : Nat) (el : Finset Nat) (s : Bool) :
    (mkPot a np nr el s).amount = a := rfl

@[simp] lemma mkPot_num_players (a : Int) (np nr : Nat) (el : Finset Nat) (s : Bool) :
    (mkPot a np nr el s).num_players = np := rfl

@[simp] lemma mkPot_num_runs (a : Int) (np nr : Nat) (el : Finset Nat) (s : Bool) :
    (mkPot a np nr el s).num_runs = nr := rfl

@[simp] lemma mkPot_players_eligible (a : Int) (np nr : Nat) (el : Finset Nat) (s : Bool) :
    (mkPot a np nr el s).players_eligible = el := rfl

@[simp] lemma mkPot_is_sidepot (a : Int) (np nr : Nat) (el : Finset Nat) (s : Bool) :
    (mkPot a np nr el s).is_sidepot = s := rfl

@[simp] lemma mkPot_entitled_chips (a : Int) (np nr : Nat) (el : Finset Nat) (s : Bool) :
    (mkPot a np nr el s).entitled_chips = List.replicate np 0 := rfl

@[simp] lemma mkPot_entitled_chips_per_run (a : Int) (np nr : Nat) (el : Finset Nat) (s : Bool) :
    (mkPot a np nr el s).entitled_chips_per_run
      = List.replicate nr (List.replicate np 0) := rfl

lemma sidePots_nil (np nr : Nat) : sidePots np nr [] = ([], []) := by
  rw [sidePots]

lemma sidePots_singleton (np nr : Nat) (p : Nat × Int) :
    sidePots np nr [p] = ([], [p]) := by
  rw [sidePots]

lemma sidePots_cons (np nr : Nat) (p q : Nat × Int) (rest : List (Nat × Int)) :
    sidePots np nr (p :: q :: rest) =
      (mkPot (p.2 * ((p :: q :: rest).length : Int)) np nr
          ((p :: q :: rest).map Prod.fst).toFinset true ::
        (sidePots np nr (subtractAndFilter p.2 (p :: q :: rest))).1,
       (sidePots np nr (subtractAndFilter p.2 (p :: q :: rest))).2) := by
  rw [sidePots]

lemma sidePots_sum (np nr : Nat) (ps : List (Nat × Int))
    (h : ps.Pairwise (fun a b => a.2 ≤ b.2)) :
    potSum (sidePots np nr ps).1 + stackSum (sidePots np nr ps).2 = stackSum ps := by
  induction ps using sidePots.induct np nr with
  | case1 => simp [sidePots, potSum, stackSum]
  | case2 p => simp [sidePots, potSum, stackSum]
  | case3 p q rest ih =>
    rw [sidePots_cons]
    have hlow : ∀ e ∈ p :: q :: rest, p.2 ≤ e.2 := pairwise_head_le p (q :: rest) h
    have hsum := subtractAndFilter_sum p.2 (p :: q :: rest) hlow
    have ih2 := ih (subtractAndFilter_pairwise p.2 (p :: q :: rest) h)
    simp only [potSum, List.map_cons, List.sum_cons, mkPot_amount] at *
    linarith

lemma sidePots_leftover_fst (np nr : Nat) (ps : List (Nat × Int)) :
    ∀ e ∈ (sidePots np nr ps).2, e.1 ∈ ps.map Prod.fst := by
  induction ps using sidePots.induct np nr with
  | case1 => intro e he; rw [sidePots_nil] at he; exact absurd he (List.not_mem_nil e)
  | case2 p =>
    intro e he
    rw [sidePots_singleton] at he
    have : e = p := List.mem_singleton.mp he
    rw [this]
    exact List.mem_map_of_mem Prod.fst (List.mem_singleton_self p)
  | case3 p q rest ih =>
    intro e he
    rw [sidePots_cons] at he
    exact (subtractAndFilter_fst_sublist p.2 (p :: q :: rest)).mem (ih e he)

lemma sidePots_potOK (np nr : Nat) (ps : List (Nat × Int))
    (hfst : ∀ e ∈ ps, e.1 < np) :
    ∀ pot ∈ (sidePots np nr ps).1,
      pot.entitled_chips = List.replicate np 0 ∧
      pot.entitled_chips_per_run = List.replicate nr (List.replicate np 0) ∧
      pot.players_eligible.Nonempty ∧ (∀ i ∈ pot.players_eligible, i < np) := by
  induction ps using sidePots.induct np nr with
  | case1 => intro pot hpot; rw [sidePots_nil] at hpot; exact absurd hpot (List.not_mem_nil pot)
  | case2 p => intro pot hpot; rw [sidePots_singleton] at hpot; exact absurd hpot (List.not_mem_nil pot)
  | case3 p q rest ih =>
    intro pot hpot
    rw [sidePots_cons] at hpot
    rcases List.mem_cons.mp hpot with rfl | hmem
    · refine ⟨rfl, rfl, ⟨p.1, ?_⟩, ?_⟩
      · simp only [mkPot_players_eligible, List.mem_toFinset]
        exact List.mem_map_of_mem Prod.fst (List.mem_cons_self p (q :: rest))
      · intro i hi
        simp only [mkPot_players_eligible, List.mem_toFinset] at hi
        obtain ⟨e, he, rfl⟩ := List.mem_map.mp hi
        exact hfst e he
    · have hfst' : ∀ e ∈ subtractAndFilter p.2 (p :: q :: rest), e.1 < np := by
        intro e he
        obtain ⟨e', he', heq⟩ := List.mem_map.mp (subtractAndFilter_mem_fst _ _ e he)
        exact heq ▸ hfst e' he'
      exact ih hfst' pot hmem

lemma sidePots_side_ok (np nr : Nat) (ps : List (Nat × Int))
    (hnd : (ps.map Prod.fst).Nodup) (hpos : ∀ e ∈ ps, 0 < e.2) :
    ∀ pot ∈ (sidePots np nr ps).1, 0 < pot.amount ∧ 2 ≤ pot.players_eligible.card := by
  induction ps using sidePots.induct np nr with
  | case1 => intro pot hpot; rw [sidePots_nil] at hpot; exact absurd hpot (List.not_mem_nil pot)
  | case2 p => intro pot hpot; rw [sidePots_singleton] at hpot; exact absurd hpot (List.not_mem_nil pot)
  | case3 p q rest ih =>
    intro pot hpot
    rw [sidePots_cons] at hpot
    rcases List.mem_cons.mp hpot with rfl | hmem
    · constructor
      · simp only [mkPot_amount]
        have h1 : 0 < p.2 := hpos p (List.mem_cons_self p (q :: rest))
        have h2 : (0 : Int) < ((p :: q :: rest).length : Int) := by
          simp [List.length_cons]
          positivity
        exact mul_pos h1 h2
      · simp only [mkPot_players_eligible]
        rw [List.toFinset_card_of_nodup hnd, List.length_map]
        simp [List.length_cons]
    · exact ih
        (List.Sublist.nodup (subtractAndFilter_fst_sublist p.2 (p :: q :: rest)) hnd)
        (subtractAndFilter_snd_pos p.2 (p :: q :: rest))
        pot hmem

/-- The first pot the loop emits (if any) is eligible exactly to the
players currently in the working list. -/
lemma sidePots_head_elig (np nr : Nat) (ps : List (Nat × Int)) :
    ∀ pot ∈ ((sidePots np nr ps).1).head?,
      pot.players_eligible = (ps.map Prod.fst).toFinset := by
  match ps with
  | [] => intro pot hpot; simp [sidePots] at hpot
  | [p] => intro pot hpot; simp [sidePots] at hpot
  | p :: q :: rest =>
    intro pot hpot
    rw [sidePots_cons] at hpot
    simp only [List.head?_cons, Option.mem_def, Option.some.injEq] at hpot
    rw [← hpot]
    simp

lemma sidePots_chain (np nr : Nat) (ps : List (Nat × Int))
    (hnd : (ps.map Prod.fst).Nodup) :
    List.Chain' (fun a b => b.players_eligible ⊂ a.players_eligible)
      (sidePots np nr ps).1 := by
  induction ps using sidePots.induct np nr with
  | case1 => simp [sidePots]
  | case2 p => simp [sidePots]
  | case3 p q rest ih =>
    rw [sidePots_cons]
    have hnd' : ((subtractAndFilter p.2 (p :: q :: rest)).map Prod.fst).Nodup :=
      List.Sublist.nodup (subtractAndFilter_fst_sublist p.2 (p :: q :: rest)) hnd
    rw [List.chain'_cons']
    refine ⟨?_, ih hnd'⟩
    intro b hb
    have hb2 := sidePots_head_elig np nr (subtractAndFilter p.2 (p :: q :: rest)) b hb
    rw [hb2]
    simp only [mkPot_players_eligible]
    have hsub : ((subtractAndFilter p.2 (p :: q :: rest)).map Prod.fst).toFinset ⊆
        ((p :: q :: rest).map Prod.fst).toFinset := by
      intro x hx
      rw [List.mem_toFinset] at *
      exact (subtractAndFilter_fst_sublist p.2 (p :: q :: rest)).mem hx
    rw [Finset.ssubset_iff_of_subset hsub]
    refine ⟨p.1, ?_, ?_⟩
    · rw [List.mem_toFinset]
      exact List.mem_map_of_mem Prod.fst (List.mem_cons_self p (q :: rest))
    · rw [List.mem_toFinset]
      intro hmem
      have hdrop : subtractAndFilter p.2 (p :: q :: rest)
          = subtractAndFilter p.2 (q :: rest) := subtractAndFilter_cons_head p (q :: rest)
      rw [hdrop] at hmem
      have : p.1 ∈ (q :: rest).map Prod.fst :=
        (subtractAndFilter_fst_sublist p.2 (q :: rest)).mem hmem
      simp only [List.map_cons, List.nodup_cons] at hnd
      exact hnd.1 this

/-! ### The sorted stack list -/

lemma sortedByStack_perm (s : List Int) : (sortedByStack s).Perm s.enum :=
  List.mergeSort_perm s.enum _

lemma sortedByStack_pairwise (s : List Int) :
    (sortedByStack s).Pairwise (fun a b => a.2 ≤ b.2) := by
  have h := @List.sorted_mergeSort (Nat × Int) (fun a b => decide (a.2 ≤ b.2))
    (by intro a b c hab hbc; simp only [decide_eq_true_eq] at *; exact le_trans hab hbc)
    (by intro a b; simpa using le_total a.2 b.2)
    s.enum
  exact h.imp (by intro a b hab; simpa using hab)

lemma sortedByStack_length (s : List Int) : (sortedByStack s).length = s.length := by
  rw [(sortedByStack_perm s).length_eq, List.enum_length]

lemma sortedByStack_stackSum (s : List Int) : stackSum (sortedByStack s) = s.sum := by
  unfold stackSum
  rw [List.Perm.sum_eq (List.Perm.map Prod.snd (sortedByStack_perm s)), List.enum_map_snd]

lemma sortedByStack_fst_nodup (s : List Int) : ((sortedByStack s).map Prod.fst).Nodup := by
  have hperm := List.Perm.map Prod.fst (sortedByStack_perm s)
  rw [List.enum_map_fst] at hperm
  exact (List.Perm.nodup hperm.symm) (List.nodup_range s.length)

lemma sortedByStack_fst_lt (s : List Int) : ∀ e ∈ sortedByStack s, e.1 < s.length := by
  intro e he
  have h1 : e.1 ∈ (sortedByStack s).map Prod.fst := List.mem_map_of_mem Prod.fst he
  have h2 : e.1 ∈ (s.enum).map Prod.fst := (List.Perm.map Prod.fst (sortedByStack_perm s)).mem_iff.mp h1
  rw [List.enum_map_fst] at h2
  exact List.mem_range.mp h2

lemma sortedByStack_eq_nil (s : List Int) (h : sortedByStack s = []) : s = [] := by
  have := sortedByStack_length s
  rw [h] at this
  exact List.length_eq_zero.mp this.symm

/-! ### The pot allocator -/

lemma allocatePots_of_sorted (s : List Int) (money : Int) (nr : Nat) (p0 : Nat × Int)
    (tail : List (Nat × Int)) (h : sortedByStack s = p0 :: tail) :
    allocatePots s money nr =
      (mkPot (money + p0.2 * (s.length : Int)) s.length nr (Finset.range s.length) false ::
          (sidePots s.length nr (subtractAndFilter p0.2 (p0 :: tail))).1,
        (sidePots s.length nr (subtractAndFilter p0.2 (p0 :: tail))).2) := by
  unfold allocatePots
  rw [h]

lemma allocatePots_sum (s : List Int) (money : Int) (nr : Nat) (hne : s ≠ []) :
    potSum (allocatePots s money nr).1 + stackSum (allocatePots s money nr).2
      = money + s.sum := by
  cases hsv : sortedByStack s with
  | nil => exact absurd (sortedByStack_eq_nil s hsv) hne
  | cons p0 tail =>
    rw [allocatePots_of_sorted s money nr p0 tail hsv]
    have hlow : ∀ e ∈ p0 :: tail, p0.2 ≤ e.2 :=
      pairwise_head_le p0 tail (hsv ▸ sortedByStack_pairwise s)
    have hsum := subtractAndFilter_sum p0.2 (p0 :: tail) hlow
    have hside := sidePots_sum s.length nr (subtractAndFilter p0.2 (p0 :: tail))
      (subtractAndFilter_pairwise p0.2 (p0 :: tail) (hsv ▸ sortedByStack_pairwise s))
    have hss : stackSum (p0 :: tail) = s.sum := by
      rw [← hsv, sortedByStack_stackSum]
    have hlen : ((p0 :: tail).length : Int) = (s.length : Int) := by
      rw [← hsv, sortedByStack_length]
    simp only [potSum, List.map_cons, List.sum_cons, mkPot_amount] at *
    rw [hlen] at hsum
    linarith

lemma allocatePots_potOK (s : List Int) (money : Int) (nr : Nat) (h1 : 1 ≤ s.length) :
    ∀ pot ∈ (allocatePots s money nr).1,
      pot.entitled_chips = List.replicate s.length 0 ∧
      pot.entitled_chips_per_run = List.replicate nr (List.replicate s.length 0) ∧
      pot.players_eligible.Nonempty ∧ (∀ i ∈ pot.players_eligible, i < s.length) := by
  cases hsv : sortedByStack s with
  | nil =>
    have := sortedByStack_eq_nil s hsv
    rw [this] at h1
    simp at h1
  | cons p0 tail =>
    rw [allocatePots_of_sorted s money nr p0 tail hsv]
    intro pot hpot
    rcases List.mem_cons.mp hpot with rfl | hmem
    · refine ⟨rfl, rfl, ⟨0, ?_⟩, ?_⟩
      · simp only [mkPot_players_eligible, Finset.mem_range]
        omega
      · intro i hi
        simpa using hi
    · have hfst : ∀ e ∈ subtractAndFilter p0.2 (p0 :: tail), e.1 < s.length := by
        intro e he
        obtain ⟨e', he', heq⟩ := List.mem_map.mp (subtractAndFilter_mem_fst _ _ e he)
        exact heq ▸ (sortedByStack_fst_lt s e' (hsv ▸ he'))
      exact sidePots_potOK s.length nr _ hfst pot hmem

lemma allocatePots_leftover_fst (s : List Int) (money : Int) (nr : Nat) :
    ∀ e ∈ (allocatePots s money nr).2, e.1 < s.length := by
  cases hsv : sortedByStack s with
  | nil =>
    intro e he
    unfold allocatePots at he
    rw [hsv] at he
    exact absurd he (List.not_mem_nil e)
  | cons p0 tail =>
    rw [allocatePots_of_sorted s money nr p0 tail hsv]
    intro e he
    have h1 := sidePots_leftover_fst s.length nr _ e he
    obtain ⟨e', he', heq⟩ :=
      List.mem_map.mp ((subtractAndFilter_fst_sublist p0.2 (p0 :: tail)).mem h1)
    exact heq ▸ sortedByStack_fst_lt s e' (hsv ▸ he')

/-! ### Summation lemmas for the settlement composition -/

lemma vadd_length (a b : List Int) (h : b.length = a.length) :
    (vadd a b).length = a.length := by
  unfold vadd
  rw [List.length_zipWith, h, Nat.min_self]

lemma vadd_sum (a b : List Int) (h : b.length = a.length) :
    (vadd a b).sum = a.sum + b.sum := by
  induction a generalizing b with
  | nil =>
    have : b = [] := List.length_eq_zero.mp h
    simp [this, vadd]
  | cons x xs ih =>
    cases b with
    | nil => simp at h
    | cons y ys =>
      show ((x + y) :: vadd xs ys).sum = _
      rw [List.sum_cons, ih ys (by simpa using h), List.sum_cons, List.sum_cons]
      ring

lemma foldl_bump_length (l : List (Nat × Int)) (r : List Int) :
    (l.foldl (fun r e => bump r e.1 e.2) r).length = r.length := by
  induction l generalizing r with
  | nil => rfl
  | cons e t ih => rw [List.foldl_cons, ih, bump_length]

lemma foldl_bump_sum (l : List (Nat × Int)) (r : List Int)
    (h : ∀ e ∈ l, e.1 < r.length) :
    (l.foldl (fun r e => bump r e.1 e.2) r).sum = r.sum + stackSum l := by
  induction l generalizing r with
  | nil => simp [stackSum]
  | cons e t ih =>
    rw [List.foldl_cons, ih (bump r e.1 e.2)
      (fun x hx => by rw [bump_length]; exact h x (List.mem_cons_of_mem e hx))]
    rw [bump_sum r e.1 e.2 (h e (List.mem_cons_self e t))]
    simp only [stackSum, List.map_cons, List.sum_cons]
    ring

lemma foldl_vadd_pots_length (rr : List (List (List Nat))) (pots : List Pot) (r : List Int)
    (h : ∀ pot ∈ pots, pot.entitled_chips.length = r.length) :
    (pots.foldl (fun r pot => vadd r (pot.distribute rr).2) r).length = r.length := by
  induction pots generalizing r with
  | nil => rfl
  | cons pot rest ih =>
    rw [List.foldl_cons]
    have hd : ((pot.distribute rr).2).length = r.length := by
      rw [Pot.distribute_snd_length]
      exact h pot (List.mem_cons_self pot rest)
    rw [ih (vadd r (pot.distribute rr).2)
      (fun x hx => by
        rw [vadd_length r _ hd]
        exact h x (List.mem_cons_of_mem pot hx))]
    exact vadd_length r _ hd

lemma foldl_vadd_pots_sum (rr : List (List (List Nat))) (pots : List Pot) (r : List Int)
    (h : ∀ pot ∈ pots,
      ((pot.distribute rr).2).sum = pot.amount ∧
      ((pot.distribute rr).2).length = r.length) :
    (pots.foldl (fun r pot => vadd r (pot.distribute rr).2) r).sum = r.sum + potSum pots := by
  induction pots generalizing r with
  | nil => simp [potSum]
  | cons pot rest ih =>
    rw [List.foldl_cons]
    obtain ⟨hsum, hlen⟩ := h pot (List.mem_cons_self pot rest)
    rw [ih (vadd r (pot.distribute rr).2)
      (fun x hx => ⟨(h x (List.mem_cons_of_mem pot hx)).1,
        by rw [vadd_length r _ hlen]; exact (h x (List.mem_cons_of_mem pot hx)).2⟩)]
    rw [vadd_sum r _ hlen, hsum]
    simp only [potSum, List.map_cons, List.sum_cons]
    ring

lemma calculate_eq (s : List Int) (money : Int) (rr : List (List (List Nat))) :
    calculate s money rr =
      (allocatePots s money rr.length).1.foldl
        (fun r pot => vadd r (pot.distribute rr).2)
        ((allocatePots s money rr.length).2.foldl (fun r e => bump r e.1 e.2)
          (List.replicate s.length 0)) := rfl

lemma validRanking_cover (n : Nat) (run : List (List Nat)) (h : ValidRanking n run)
    (i : Nat) (hi : i < n) : ∃ t ∈ run, i ∈ t := by
  have h1 := h.2 i hi
  have hpos : 0 < run.countP (fun t => decide (i ∈ t)) := by omega
  obtain ⟨t, ht, hdec⟩ := List.countP_pos_iff.mp hpos
  exact ⟨t, ht, by simpa using hdec⟩

lemma Pot.distribute_fst_entitled (p : Pot) (rr : List (List (List Nat))) :
    ((p.distribute rr).1).entitled_chips = (p.distribute rr).2 := rfl

/-- C1: for every valid input (at least 2 players, non-negative stacks,
non-negative pot money, at least 1 run, every run a total-partition
`HandRanking`), `calculate` returns final stacks summing to
`money + sum(player_stacks)`, and each allocated pot's distributed
entitlements sum to that pot's amount. -/
theorem chip_conservation (s : List Int) (money : Int) (rr : List (List (List Nat)))
    (hN : 2 ≤ s.length) (hs : ∀ x ∈ s, 0 ≤ x) (hm : 0 ≤ money)
    (hr : 1 ≤ rr.length) (hv : ∀ run ∈ rr, ValidRanking s.length run) :
    (calculate s money rr).sum = money + s.sum ∧
    ∀ pot ∈ (allocatePots s money rr.length).1,
      ((pot.distribute rr).1).entitled_chips.sum = pot.amount := by
  have hne : s ≠ [] := by
    intro h
    rw [h] at hN
    simp at hN
  have hpots : ∀ pot ∈ (allocatePots s money rr.length).1,
      ((pot.distribute rr).2).sum = pot.amount ∧
      ((pot.distribute rr).2).length = s.length := by
    intro pot hpot
    obtain ⟨he, hper, hnonempty, hlt⟩ :=
      allocatePots_potOK s money rr.length (by omega) pot hpot
    have hElen : ∀ i ∈ pot.players_eligible, i < pot.entitled_chips.length := by
      intro i hi
      rw [he, List.length_replicate]
      exact hlt i hi
    have hcov : ∀ run ∈ rr, ∃ t ∈ run, ∃ id ∈ t, id ∈ pot.players_eligible := by
      intro run hrun
      obtain ⟨i, hi⟩ := hnonempty
      obtain ⟨t, ht, hit⟩ := validRanking_cover s.length run (hv run hrun) i (hlt i hi)
      exact ⟨t, ht, i, hit, hi⟩
    have hsum := Pot.distribute_fst_sum pot rr hElen
      (by rw [hper, List.length_replicate]) hr hcov
    refine ⟨?_, ?_⟩
    · rw [hsum, he]
      simp
    · rw [Pot.distribute_snd_length, he, List.length_replicate]
  refine ⟨?_, fun pot hpot => by
    rw [Pot.distribute_fst_entitled]
    exact (hpots pot hpot).1⟩
  rw [calculate_eq]
  have hlenR : ((allocatePots s money rr.length).2.foldl (fun r e => bump r e.1 e.2)
      (List.replicate s.length 0)).length = s.length := by
    rw [foldl_bump_length, List.length_replicate]
  have hforpots : ∀ pot ∈ (allocatePots s money rr.length).1,
      ((pot.distribute rr).2).sum = pot.amount ∧
      ((pot.distribute rr).2).length
        = ((allocatePots s money rr.length).2.foldl (fun r e => bump r e.1 e.2)
            (List.replicate s.length 0)).length := by
    intro pot hpot
    rw [hlenR]
    exact hpots pot hpot
  rw [foldl_vadd_pots_sum rr _ _ hforpots]
  rw [foldl_bump_sum _ _ (fun e he => by
    rw [List.length_replicate]
    exact allocatePots_leftover_fst s money rr.length e he)]
  have halloc := allocatePots_sum s money rr.length hne
  have hr0 : (List.replicate s.length (0 : Int)).sum = 0 := by simp
  rw [hr0]
  linarith

/-- Witness for C1 at the repository's own debug fixture
(4 players, stacks 300/150/100/600, 1000 already in the pot, 3 runs). -/
theorem chip_conservation_witness :
    (calculate [300, 150, 100, 600] 1000
        [[[1], [2], [0], [3]], [[2], [1, 3], [0]], [[0, 1], [2], [3]]]).sum
      = 1000 + ([300, 150, 100, 600] : List Int).sum :=
  (chip_conservation [300, 150, 100, 600] 1000
    [[[1], [2], [0], [3]], [[2], [1, 3], [0]], [[0, 1], [2], [3]]]
    (by decide) (by decide) (by decide) (by decide) (by decide)).1

/-! ### Resolution of a run at its first eligible tier -/

/-- Once the scan reaches the first tier with an eligible member, the
whole remaining share is handed to that tier's eligible members (in the
tier's own iteration order) and the scan is inert afterwards. -/
lemma distributeRun_resolve (elig : Finset Nat) (e row : List Int) (chips : Int)
    (pre : List (List Nat)) (t : List Nat) (post : List (List Nat))
    (hpre : ∀ t' ∈ pre, ∀ id ∈ t', id ∉ elig)
    (ht : ∃ id ∈ t, id ∈ elig) :
    distributeRun elig e row chips (pre ++ t :: post) =
      if chips = 0 then (e, row)
      else
        (addChips e (t.filter (fun id => decide (id ∈ elig)))
            (cascade chips (t.filter (fun id => decide (id ∈ elig))).length),
         addChips row (t.filter (fun id => decide (id ∈ elig)))
            (cascade chips (t.filter (fun id => decide (id ∈ elig))).length)) := by
  induction pre generalizing e row chips with
  | nil =>
    rw [List.nil_append, distributeRun_cons]
    by_cases hz : chips = 0
    · rw [if_pos hz, if_pos hz]
    · rw [if_neg hz, if_neg hz]
      dsimp only
      have hne : t.filter (fun id => decide (id ∈ elig)) ≠ [] := by
        obtain ⟨id, hid, hmem⟩ := ht
        intro hnil
        rw [List.filter_eq_nil_iff] at hnil
        exact hnil id hid (by simpa using hmem)
      rw [if_neg (by simpa [List.isEmpty_iff] using hne)]
      have hlen : 1 ≤ (t.filter (fun id => decide (id ∈ elig))).length :=
        List.length_pos.mpr hne
      rw [cascade_sum _ _ hlen, sub_self, distributeRun_zero]
  | cons t' pre' ih =>
    rw [List.cons_append, distributeRun_cons]
    by_cases hz : chips = 0
    · rw [if_pos hz, if_pos hz]
    · rw [if_neg hz, if_neg hz]
      dsimp only
      have hids : (t'.filter (fun id => decide (id ∈ elig))).isEmpty := by
        rw [List.isEmpty_iff, List.filter_eq_nil_iff]
        intro id hid
        simpa using hpre t' (List.mem_cons_self t' pre') id hid
      rw [if_pos hids]
      rw [ih e row chips (fun x hx => hpre x (List.mem_cons_of_mem t' hx)), if_neg hz]

/-- C8: for every pot and run, once the tier scan reaches the first tier
containing an eligible player, that tier's eligible winners receive the
run's entire share, and the lower tiers receive nothing from this
pot/run: the outcome does not depend on them at all. -/
theorem first_eligible_tier_takes_all (elig : Finset Nat) (e row : List Int) (chips : Int)
    (pre : List (List Nat)) (t : List Nat) (post post' : List (List Nat))
    (hpre : ∀ t' ∈ pre, ∀ id ∈ t', id ∉ elig)
    (ht : ∃ id ∈ t, id ∈ elig)
    (hE : ∀ i ∈ elig, i < e.length) :
    distributeRun elig e row chips (pre ++ t :: post)
      = distributeRun elig e row chips (pre ++ t :: post') ∧
    (distributeRun elig e row chips (pre ++ t :: post)).1.sum = e.sum + chips := by
  constructor
  · rw [distributeRun_resolve elig e row chips pre t post hpre ht,
      distributeRun_resolve elig e row chips pre t post' hpre ht]
  · obtain ⟨id, hid, hmem⟩ := ht
    exact distributeRun_fst_sum elig e row chips (pre ++ t :: post) hE
      (Or.inl ⟨t, List.mem_append_right pre (List.mem_cons_self t post), id, hid, hmem⟩)

/-- Witness for C8: share 5, eligible player 0; tier [1] is skipped, tier
[0, 2] resolves the run, the trailing tier [1] gets nothing. -/
theorem first_eligible_tier_takes_all_witness :
    distributeRun {0} [0, 0, 0] [0, 0, 0] 5 ([[1]] ++ [0, 2] :: [[1]])
      = distributeRun {0} [0, 0, 0] [0, 0, 0] 5 ([[1]] ++ [0, 2] :: []) ∧
    (distributeRun {0} [0, 0, 0] [0, 0, 0] 5 ([[1]] ++ [0, 2] :: [[1]])).1.sum
      = ([0, 0, 0] : List Int).sum + 5 :=
  first_eligible_tier_takes_all {0} [0, 0, 0] [0, 0, 0] 5 [[1]] [0, 2] [[1]] []
    (by decide) (by decide) (by decide)

/-- C4 counterexample: the entitlements DO depend on the tied set's
iteration order. For the same tied set {0, 1} and a 1-chip pot, iteration
order [0, 1] gives the odd chip to player 1 while order [1, 0] gives it
to player 0 — so the code's tie-break is not pinned to ascending player
index and is sensitive to the incidental container ordering. -/
theorem tie_order_dependence_cex :
    (([0, 1] : List Nat).toFinset = ([1, 0] : List Nat).toFinset) ∧
    ((mkPot 1 2 1 {0, 1} false).distribute [[[0, 1]]]).2 = [0, 1] ∧
    ((mkPot 1 2 1 {0, 1} false).distribute [[[1, 0]]]).2 = [1, 0] ∧
    ((mkPot 1 2 1 {0, 1} false).distribute [[[0, 1]]]).2
      ≠ ((mkPot 1 2 1 {0, 1} false).distribute [[[1, 0]]]).2 := by
  refine ⟨by decide, by decide, by decide, by decide⟩

/-- C4 (amended): the winners who split a run's share are the members of
the first eligible tier intersected with the pot's eligible set,
processed in the TIER'S OWN iteration order (the order the Python set
happens to yield); the per-player entitlements depend on that incidental
order — the LAST-processed tied winner absorbs the remainder chip. -/
theorem winners_iteration_order (elig : Finset Nat) (e row : List Int) (chips : Int)
    (pre : List (List Nat)) (t : List Nat) (post : List (List Nat))
    (hpre : ∀ t' ∈ pre, ∀ id ∈ t', id ∉ elig)
    (ht : ∃ id ∈ t, id ∈ elig) (hch : chips ≠ 0) :
    (distributeRun elig e row chips (pre ++ t :: post)).1
      = addChips e (t.filter (fun id => decide (id ∈ elig)))
          (cascade chips (t.filter (fun id => decide (id ∈ elig))).length) ∧
    ((mkPot 1 2 1 {0, 1} false).distribute [[[0, 1]]]).2
      ≠ ((mkPot 1 2 1 {0, 1} false).distribute [[[1, 0]]]).2 := by
  constructor
  · rw [distributeRun_resolve elig e row chips pre t post hpre ht, if_neg hch]
  · decide

/-- Witness for C4 (amended) at the 1-chip two-way-tie fixture. -/
theorem winners_iteration_order_witness :
    (distributeRun {0, 1} [0, 0] [0, 0] 1 ([] ++ [0, 1] :: [])).1
      = addChips [0, 0] (([0, 1] : List Nat).filter (fun id => decide (id ∈ ({0, 1} : Finset Nat))))
          (cascade 1 (([0, 1] : List Nat).filter
            (fun id => decide (id ∈ ({0, 1} : Finset Nat)))).length) ∧
    ((mkPot 1 2 1 {0, 1} false).distribute [[[0, 1]]]).2
      ≠ ((mkPot 1 2 1 {0, 1} false).distribute [[[1, 0]]]).2 :=
  (winners_iteration_order {0, 1} [0, 0] [0, 0] 1 [] [0, 1] []
    (by decide) (by decide) (by decide))

/-- C2 counterexample: the cascading division BACK-loads the remainder.
1000 chips over 3 runs gives shares 333, 333, 334 (not 334, 333, 333 and
not non-increasing), and 100 chips among 3 tied winners in order
[0, 1, 2] gives entitlements 33, 33, 34 — the LAST index absorbs the
remainder, not the earliest. -/
theorem cascade_front_load_cex :
    cascade 1000 3 = [333, 333, 334] ∧
    cascade 1000 3 ≠ [334, 333, 333] ∧
    ¬ List.Chain' (fun a b => b ≤ a) (cascade 1000 3) ∧
    ((mkPot 100 3 1 {0, 1, 2} false).distribute [[[0, 1, 2]]]).2 = [33, 33, 34] ∧
    ((mkPot 100 3 1 {0, 1, 2} false).distribute [[[0, 1, 2]]]).2 ≠ [34, 33, 33] := by
  refine ⟨by decide, by decide, ?_, by decide, by decide⟩
  intro h
  rw [show cascade 1000 3 = [333, 333, 334] from by decide] at h
  have h2 := (List.chain'_cons.mp ((List.chain'_cons.mp h).2)).1
  omega

/-- C2 (amended): the cascading-division rule used for both the per-run
split and the tied-winner split produces a NON-DECREASING share sequence,
back-loading any indivisible remainder onto the latest positions: 1000
over 3 runs gives 333, 333, 334, and 100 chips over tied winners in order
[0, 1, 2] gives 34 to the last winner, 33 to the earlier ones. -/
theorem cascade_back_load (V : Int) (K : Nat) :
    List.Chain' (· ≤ ·) (cascade V K) ∧
    cascade 1000 3 = [333, 333, 334] ∧
    ((mkPot 100 3 1 {0, 1, 2} false).distribute [[[0, 1, 2]]]).2 = [33, 33, 34] :=
  ⟨cascade_chain V K, by decide, by decide⟩

/-- C3 counterexample: with stacks [0, 5, 5] and 7 chips already in the
pot, the main pot's amount is 7 + 0·3 = 7 (the global minimum stack — of
a player who is all-in for zero — times ALL three players) with eligible
set {0, 1, 2}; the claim's working-set reading predicts 7 + 5·2 = 17 with
eligible set {1, 2}. -/
theorem main_pot_zero_stack_cex :
    ((allocatePots [0, 5, 5] 7 1).1.head?.map Pot.amount = some 7) ∧
    ((allocatePots [0, 5, 5] 7 1).1.head?.map Pot.players_eligible = some {0, 1, 2}) ∧
    (7 : Int) ≠ 7 + 5 * 2 ∧ ({0, 1, 2} : Finset Nat) ≠ {1, 2} := by
  have h : sortedByStack [0, 5, 5] = [(0, 0), (1, 5), (2, 5)] := by
    simp [sortedByStack, List.mergeSort, List.enum, List.enumFrom]
  rw [allocatePots_of_sorted _ _ _ _ _ h]
  refine ⟨by norm_num, by norm_num; decide, by decide, by decide⟩

/-- C3 (amended): for every non-empty stack list, the main pot's amount
is `money + m * N` where `m` is the minimum over ALL initial stacks
(zero-stack players included) and `N` the total number of players, and
its eligible set is ALL `N` players regardless of stack. -/
theorem main_pot_amount (s : List Int) (money : Int) (nr : Nat) (hne : s ≠ []) :
    ∃ m, m ∈ s ∧ (∀ x ∈ s, m ≤ x) ∧
      ∃ rest, (allocatePots s money nr).1
        = mkPot (money + m * (s.length : Int)) s.length nr
            (Finset.range s.length) false :: rest := by
  cases hsv : sortedByStack s with
  | nil => exact absurd (sortedByStack_eq_nil s hsv) hne
  | cons p0 tail =>
    refine ⟨p0.2, ?_, ?_, ?_⟩
    · have h1 : p0.2 ∈ (sortedByStack s).map Prod.snd := by
        rw [hsv]
        exact List.mem_map_of_mem Prod.snd (List.mem_cons_self p0 tail)
      have h2 : p0.2 ∈ (s.enum).map Prod.snd :=
        (List.Perm.map Prod.snd (sortedByStack_perm s)).mem_iff.mp h1
      rwa [List.enum_map_snd] at h2
    · intro x hx
      have h1 : x ∈ (s.enum).map Prod.snd := by rwa [List.enum_map_snd]
      have h2 : x ∈ (sortedByStack s).map Prod.snd :=
        (List.Perm.map Prod.snd (sortedByStack_perm s)).mem_iff.mpr h1
      obtain ⟨e, he, rfl⟩ := List.mem_map.mp h2
      exact pairwise_head_le p0 tail (hsv ▸ sortedByStack_pairwise s) e (hsv ▸ he)
    · refine ⟨(sidePots s.length nr (subtractAndFilter p0.2 (p0 :: tail))).1, ?_⟩
      rw [allocatePots_of_sorted s money nr p0 tail hsv]

/-- Witness for C3 (amended) at stacks [0, 5, 5], 7 chips in the pot. -/
theorem main_pot_amount_witness :
    ∃ m, m ∈ ([0, 5, 5] : List Int) ∧ (∀ x ∈ ([0, 5, 5] : List Int), m ≤ x) ∧
      ∃ rest, (allocatePots [0, 5, 5] 7 1).1
        = mkPot (7 + m * (([0, 5, 5] : List Int).length : Int)) ([0, 5, 5] : List Int).length 1
            (Finset.range ([0, 5, 5] : List Int).length) false :: rest :=
  main_pot_amount [0, 5, 5] 7 1 (by decide)

/-! ### Behaviour when no tier holds an eligible player -/

lemma distributeRuns_fst_noEligible (elig : Finset Nat) (runs : List (List (List Nat)))
    (shares e : List Int) (perRun : List (List Int))
    (h : ∀ run ∈ runs, ∀ t ∈ run, ∀ id ∈ t, id ∉ elig) :
    (distributeRuns elig runs shares e perRun).1 = e := by
  induction runs generalizing shares e perRun with
  | nil => rfl
  | cons run rest ih =>
    cases shares with
    | nil => rfl
    | cons c cs =>
      cases perRun with
      | nil => rfl
      | cons row rows =>
        rw [distributeRuns_cons]
        dsimp only
        rw [distributeRun_noEligible elig e row c run
          (h run (List.mem_cons_self run rest))]
        exact ih cs e rows (fun r hr => h r (List.mem_cons_of_mem run hr))

/-- C5 counterexample: a pot of 10 chips eligible only to player 0 faces
a single run whose only tier contains only player 1. `distribute`
returns normally with every entitlement zero: the run's share of the pot
(all 10 chips) is silently dropped, no error of any kind is raised. -/
theorem no_eligible_tier_cex :
    ((mkPot 10 2 1 {0} false).distribute [[[1]]]).2 = [0, 0] ∧
    (((mkPot 10 2 1 {0} false).distribute [[[1]]]).2).sum
      ≠ (mkPot 10 2 1 {0} false).amount := by
  refine ⟨by decide, by decide⟩

/-- C5 (amended): when no tier of any run contains a player eligible for
the pot, `Pot.distribute` completes normally with the accumulators
unchanged — the pot's chips are silently dropped; the code has no
consistency-violation error path. -/
theorem no_eligible_tier_drops (p : Pot) (rr : List (List (List Nat)))
    (h : ∀ run ∈ rr, ∀ t ∈ run, ∀ id ∈ t, id ∉ p.players_eligible) :
    ((p.distribute rr).1).entitled_chips = p.entitled_chips ∧
    (p.distribute rr).2 = p.entitled_chips := by
  have h1 : (p.distribute rr).2 = p.entitled_chips := by
    show (distributeRuns p.players_eligible rr (cascade p.amount rr.length)
      p.entitled_chips p.entitled_chips_per_run).1 = p.entitled_chips
    exact distributeRuns_fst_noEligible _ _ _ _ _ h
  exact ⟨(Pot.distribute_fst_entitled p rr).trans h1, h1⟩

/-- Witness for C5 (amended) at the 10-chip pot with no eligible tier. -/
theorem no_eligible_tier_drops_witness :
    ((mkPot 10 2 1 {0} false).distribute [[[1]]]).1.entitled_chips
      = (mkPot 10 2 1 {0} false).entitled_chips ∧
    ((mkPot 10 2 1 {0} false).distribute [[[1]]]).2
      = (mkPot 10 2 1 {0} false).entitled_chips :=
  no_eligible_tier_drops (mkPot 10 2 1 {0} false) [[[1]]] (by decide)

/-! ### Absence of input validation -/

lemma sidePots_entitled_shape (np nr : Nat) (ps : List (Nat × Int)) :
    ∀ pot ∈ (sidePots np nr ps).1, pot.entitled_chips = List.replicate np 0 := by
  induction ps using sidePots.induct np nr with
  | case1 =>
    intro pot hpot
    rw [sidePots_nil] at hpot
    exact absurd hpot (List.not_mem_nil pot)
  | case2 p =>
    intro pot hpot
    rw [sidePots_singleton] at hpot
    exact absurd hpot (List.not_mem_nil pot)
  | case3 p q rest ih =>
    intro pot hpot
    rw [sidePots_cons] at hpot
    rcases List.mem_cons.mp hpot with rfl | hmem
    · rfl
    · exact ih pot hmem

lemma allocatePots_entitled_shape (s : List Int) (money : Int) (nr : Nat) :
    ∀ pot ∈ (allocatePots s money nr).1,
      pot.entitled_chips = List.replicate s.length 0 := by
  cases hsv : sortedByStack s with
  | nil =>
    intro pot hpot
    unfold allocatePots at hpot
    rw [hsv] at hpot
    exact absurd hpot (List.not_mem_nil pot)
  | cons p0 tail =>
    rw [allocatePots_of_sorted s money nr p0 tail hsv]
    intro pot hpot
    rcases List.mem_cons.mp hpot with rfl | hmem
    · rfl
    · exact sidePots_entitled_shape s.length nr _ pot hmem

/-- C6 counterexample: a negative stack is not rejected. `calculate`
completes the full settlement on stacks [-5, 10] (player 0 "all-in" for
a negative amount) with no error and returns final stacks [-10, 15]. -/
theorem no_validation_cex :
    calculate [-5, 10] 0 [[[0], [1]]] = [-10, 15] := by
  have h : sortedByStack [-5, 10] = [(0, -5), (1, 10)] := by
    simp [sortedByStack, List.mergeSort, List.enum, List.enumFrom]
  rw [calculate_eq, allocatePots_of_sorted _ _ _ _ _ h]
  simp only [subtractAndFilter]
  norm_num
  rw [sidePots_singleton]
  decide

/-- C6 (amended): the core performs no input validation: negative
stacks, negative pot money and malformed rankings are silently computed
to completion — for every NON-EMPTY stack list `calculate` returns one
final stack per player instead of failing, and in particular a negative
stack flows straight through the settlement. (Zero players is the one
input on which the Python code stops, and it does so with an IndexError
at `sorted_players[0]`, not with a validation error.) -/
theorem no_validation (s : List Int) (money : Int) (rr : List (List (List Nat)))
    (hne : s ≠ []) :
    (calculate s money rr).length = s.length ∧
    calculate [-5, 10] 0 [[[0], [1]]] = [-10, 15] := by
  clear hne
  constructor
  · rw [calculate_eq]
    have hlenR : ((allocatePots s money rr.length).2.foldl (fun r e => bump r e.1 e.2)
        (List.replicate s.length 0)).length = s.length := by
      rw [foldl_bump_length, List.length_replicate]
    rw [foldl_vadd_pots_length rr _ _ (fun pot hpot => by
      rw [allocatePots_entitled_shape s money rr.length pot hpot, List.length_replicate,
        hlenR])]
    exact hlenR
  · have h : sortedByStack [-5, 10] = [(0, -5), (1, 10)] := by
      simp [sortedByStack, List.mergeSort, List.enum, List.enumFrom]
    rw [calculate_eq, allocatePots_of_sorted _ _ _ _ _ h]
    simp only [subtractAndFilter]
    norm_num
    rw [sidePots_singleton]
    decide

/-- Witness for C6 (amended) at the negative-stack input. -/
theorem no_validation_witness :
    (calculate [-5, 10] 0 [[[0], [1]]]).length = ([-5, 10] : List Int).length ∧
    calculate [-5, 10] 0 [[[0], [1]]] = [-10, 15] :=
  no_validation [-5, 10] 0 [[[0], [1]]] (by decide)

/-- C7: in the ordered pot list (main pot first), every pot's eligible
set is a strict subset of the eligible set of the pot before it. -/
theorem side_pots_strictly_restrictive (s : List Int) (money : Int) (nr : Nat) :
    List.Chain' (fun a b => b.players_eligible ⊂ a.players_eligible)
      (allocatePots s money nr).1 := by
  cases hsv : sortedByStack s with
  | nil =>
    unfold allocatePots
    rw [hsv]
    exact List.chain'_nil
  | cons p0 tail =>
    rw [allocatePots_of_sorted s money nr p0 tail hsv]
    have hnd : ((p0 :: tail).map Prod.fst).Nodup := hsv ▸ sortedByStack_fst_nodup s
    have hnd' : ((subtractAndFilter p0.2 (p0 :: tail)).map Prod.fst).Nodup :=
      List.Sublist.nodup (subtractAndFilter_fst_sublist p0.2 (p0 :: tail)) hnd
    rw [List.chain'_cons']
    refine ⟨?_, sidePots_chain s.length nr _ hnd'⟩
    intro b hb
    rw [sidePots_head_elig s.length nr _ b hb]
    simp only [mkPot_players_eligible]
    have hsub : ((subtractAndFilter p0.2 (p0 :: tail)).map Prod.fst).toFinset ⊆
        Finset.range s.length := by
      intro x hx
      rw [List.mem_toFinset] at hx
      obtain ⟨e, he, rfl⟩ := List.mem_map.mp hx
      rw [Finset.mem_range]
      obtain ⟨e', he', heq⟩ := List.mem_map.mp (subtractAndFilter_mem_fst _ _ e he)
      exact heq ▸ sortedByStack_fst_lt s e' (hsv ▸ he')
    rw [Finset.ssubset_iff_of_subset hsub]
    refine ⟨p0.1, ?_, ?_⟩
    · rw [Finset.mem_range]
      exact sortedByStack_fst_lt s p0 (hsv ▸ List.mem_cons_self p0 tail)
    · rw [List.mem_toFinset]
      intro hmem
      rw [subtractAndFilter_cons_head p0 tail] at hmem
      have h2 : p0.1 ∈ tail.map Prod.fst :=
        (subtractAndFilter_fst_sublist p0.2 tail).mem hmem
      simp only [List.map_cons, List.nodup_cons] at hnd
      exact hnd.1 h2

/-- C10: every pot flagged `is_sidepot` has a strictly positive amount
and at least two eligible players. -/
theorem side_pot_positive (s : List Int) (money : Int) (nr : Nat) :
    ∀ pot ∈ (allocatePots s money nr).1, pot.is_sidepot = true →
      0 < pot.amount ∧ 2 ≤ pot.players_eligible.card := by
  cases hsv : sortedByStack s with
  | nil =>
    intro pot hpot
    unfold allocatePots at hpot
    rw [hsv] at hpot
    exact absurd hpot (List.not_mem_nil pot)
  | cons p0 tail =>
    rw [allocatePots_of_sorted s money nr p0 tail hsv]
    intro pot hpot hside
    rcases List.mem_cons.mp hpot with rfl | hmem
    · rw [mkPot_is_sidepot] at hside
      exact absurd hside (by decide)
    · have hnd : ((p0 :: tail).map Prod.fst).Nodup := hsv ▸ sortedByStack_fst_nodup s
      exact sidePots_side_ok s.length nr _
        (List.Sublist.nodup (subtractAndFilter_fst_sublist p0.2 (p0 :: tail)) hnd)
        (subtractAndFilter_snd_pos p0.2 (p0 :: tail))
        pot hmem

/-- The pot list the allocator builds on the repository's debug fixture:
main pot 1400 for everyone, side pot 150 for players 1, 0, 3, side pot
300 for players 0 and 3. -/
lemma allocate_debug_fixture :
    (allocatePots [300, 150, 100, 600] 1000 3).1
      = [mkPot 1400 4 3 (Finset.range 4) false,
         mkPot 150 4 3 ([1, 0, 3] : List Nat).toFinset true,
         mkPot 300 4 3 ([0, 3] : List Nat).toFinset true] := by
  have h : sortedByStack [300, 150, 100, 600]
      = [(2, 100), (1, 150), (0, 300), (3, 600)] := by
    simp [sortedByStack, List.mergeSort, List.enum, List.enumFrom]
  rw [allocatePots_of_sorted _ _ _ _ _ h]
  have h2 : subtractAndFilter ((2, (100 : Int)) : Nat × Int).2
      [(2, 100), (1, 150), (0, 300), (3, 600)] = [(1, 50), (0, 200), (3, 500)] := by
    simp only [subtractAndFilter]
    norm_num
  rw [h2, sidePots_cons]
  have h3 : subtractAndFilter ((1, (50 : Int)) : Nat × Int).2
      [(1, 50), (0, 200), (3, 500)] = [(0, 150), (3, 450)] := by
    simp only [subtractAndFilter]
    norm_num
  rw [h3, sidePots_cons]
  have h4 : subtractAndFilter ((0, (150 : Int)) : Nat × Int).2
      [(0, 150), (3, 450)] = [(3, 300)] := by
    simp only [subtractAndFilter]
    norm_num
  rw [h4, sidePots_singleton]
  decide

/-- Witness for C10: the 150-chip side pot for players 1, 0, 3 emitted on
the debug fixture. -/
theorem side_pot_positive_witness :
    0 < (mkPot 150 4 3 (([1, 0, 3] : List Nat).toFinset) true).amount ∧
    2 ≤ (mkPot 150 4 3 (([1, 0, 3] : List Nat).toFinset) true).players_eligible.card :=
  side_pot_positive [300, 150, 100, 600] 1000 3
    (mkPot 150 4 3 (([1, 0, 3] : List Nat).toFinset) true)
    (by rw [allocate_debug_fixture]; exact List.mem_cons_of_mem _ (List.mem_cons_self _ _))
    (by decide)

/-! ### Additivity of the accumulator updates (for the repeated call) -/

lemma vadd_zero_right (l : List Int) : vadd l (List.replicate l.length 0) = l := by
  induction l with
  | nil => rfl
  | cons x xs ih =>
    show (x + 0) :: vadd xs (List.replicate xs.length 0) = x :: xs
    rw [add_zero, ih]

lemma vadd_self_two (l : List Int) : vadd l l = l.map (fun x => 2 * x) := by
  induction l with
  | nil => rfl
  | cons x xs ih =>
    show (x + x) :: vadd xs xs = (2 * x) :: xs.map (fun x => 2 * x)
    rw [ih, two_mul]

lemma map_two_sum (l : List Int) : (l.map (fun x => 2 * x)).sum = 2 * l.sum := by
  induction l with
  | nil => simp
  | cons x xs ih =>
    rw [List.map_cons, List.sum_cons, List.sum_cons, ih]
    ring

lemma bump_vadd (a b : List Int) (i : Nat) (x : Int) (h : a.length = b.length) :
    bump (vadd a b) i x = vadd a (bump b i x) := by
  induction a generalizing b i with
  | nil =>
    have hb : b = [] := (List.length_eq_zero.mp h.symm)
    subst hb
    rfl
  | cons p ps ih =>
    cases b with
    | nil => simp at h
    | cons q qs =>
      cases i with
      | zero =>
        show ((p + q) + x) :: vadd ps qs = (p + (q + x)) :: vadd ps qs
        rw [add_assoc]
      | succ j =>
        show (p + q) :: bump (vadd ps qs) j x = (p + q) :: vadd ps (bump qs j x)
        rw [ih qs j (by simpa using h)]

lemma addChips_vadd (a b : List Int) (ids : List Nat) (shares : List Int)
    (h : a.length = b.length) :
    addChips (vadd a b) ids shares = vadd a (addChips b ids shares) := by
  induction ids generalizing a b shares with
  | nil =>
    cases shares with
    | nil => rfl
    | cons s st => rfl
  | cons i it ih =>
    cases shares with
    | nil => rfl
    | cons s st =>
      rw [addChips_cons, addChips_cons, bump_vadd a b i s h]
      exact ih a (bump b i s) st (by rw [bump_length]; exact h)

lemma distributeRun_fst_vadd (elig : Finset Nat) (a b row : List Int) (chips : Int)
    (tiers : List (List Nat)) (h : a.length = b.length) :
    (distributeRun elig (vadd a b) row chips tiers).1
      = vadd a (distributeRun elig b row chips tiers).1 := by
  induction tiers generalizing a b row chips with
  | nil => rfl
  | cons t rest ih =>
    rw [distributeRun_cons, distributeRun_cons]
    by_cases hz : chips = 0
    · rw [if_pos hz, if_pos hz]
    · rw [if_neg hz, if_neg hz]
      dsimp only
      by_cases hids : (t.filter (fun id => decide (id ∈ elig))).isEmpty
      · rw [if_pos hids, if_pos hids]
        exact ih a b row chips h
      · rw [if_neg hids, if_neg hids]
        rw [addChips_vadd a b _ _ h]
        exact ih a _ _ _ (by rw [addChips_length]; exact h)

lemma distributeRun_fst_row_irrel (elig : Finset Nat) (e row row' : List Int) (chips : Int)
    (tiers : List (List Nat)) :
    (distributeRun elig e row chips tiers).1 = (distributeRun elig e row' chips tiers).1 := by
  induction tiers generalizing e row row' chips with
  | nil => rfl
  | cons t rest ih =>
    rw [distributeRun_cons, distributeRun_cons]
    by_cases hz : chips = 0
    · rw [if_pos hz, if_pos hz]
    · rw [if_neg hz, if_neg hz]
      dsimp only
      by_cases hids : (t.filter (fun id => decide (id ∈ elig))).isEmpty
      · rw [if_pos hids, if_pos hids]
        exact ih e row row' chips
      · rw [if_neg hids, if_neg hids]
        exact ih _ _ _ _

lemma distributeRuns_fst_vadd (elig : Finset Nat) (runs : List (List (List Nat)))
    (shares a b : List Int) (perRun : List (List Int)) (h : a.length = b.length) :
    (distributeRuns elig runs shares (vadd a b) perRun).1
      = vadd a (distributeRuns elig runs shares b perRun).1 := by
  induction runs generalizing shares a b perRun with
  | nil => rfl
  | cons run rest ih =>
    cases shares with
    | nil => rfl
    | cons c cs =>
      cases perRun with
      | nil => rfl
      | cons row rows =>
        rw [distributeRuns_cons, distributeRuns_cons]
        dsimp only
        rw [distributeRun_fst_vadd elig a b row c run h]
        exact ih cs a _ rows (by rw [distributeRun_fst_length]; exact h)

lemma distributeRuns_fst_rows_irrel (elig : Finset Nat) (runs : List (List (List Nat)))
    (shares e : List Int) (rows rows' : List (List Int))
    (h : rows.length = rows'.length) :
    (distributeRuns elig runs shares e rows).1
      = (distributeRuns elig runs shares e rows').1 := by
  induction runs generalizing shares e rows rows' with
  | nil => rfl
  | cons run rest ih =>
    cases shares with
    | nil => rfl
    | cons c cs =>
      cases rows with
      | nil =>
        cases rows' with
        | nil => rfl
        | cons r' rs' => simp at h
      | cons r rs =>
        cases rows' with
        | nil => simp at h
        | cons r' rs' =>
          rw [distributeRuns_cons, distributeRuns_cons]
          dsimp only
          rw [distributeRun_fst_row_irrel elig e r r' c run]
          exact ih cs _ rs rs' (by simpa using h)

lemma distributeRuns_snd_length (elig : Finset Nat) (runs : List (List (List Nat)))
    (shares e : List Int) (perRun : List (List Int)) :
    (distributeRuns elig runs shares e perRun).2.length = perRun.length := by
  induction runs generalizing shares e perRun with
  | nil => rfl
  | cons run rest ih =>
    cases shares with
    | nil => rfl
    | cons c cs =>
      cases perRun with
      | nil => rfl
      | cons row rows =>
        rw [distributeRuns_cons]
        dsimp only
        rw [List.length_cons, ih, List.length_cons]

/-- C9: `Pot.distribute` accumulates into `entitled_chips` without
resetting it, so it is not idempotent: on a freshly constructed pot, a
second call with the same rankings returns exactly twice the per-player
totals — and hence twice the pot's amount in total. -/
theorem distribute_not_idempotent (amount : Int) (np : Nat) (elig : Finset Nat) (side : Bool)
    (rr : List (List (List Nat)))
    (hE : ∀ i ∈ elig, i < np) (hr : 1 ≤ rr.length)
    (hcov : ∀ run ∈ rr, ∃ t ∈ run, ∃ id ∈ t, id ∈ elig) :
    ((((mkPot amount np rr.length elig side).distribute rr).1).distribute rr).2
        = (((mkPot amount np rr.length elig side).distribute rr).2).map (fun x => 2 * x) ∧
    (((((mkPot amount np rr.length elig side).distribute rr).1).distribute rr).2).sum
        = 2 * amount := by
  set sh := cascade amount rr.length with hsh
  set z := List.replicate np (0 : Int) with hz
  set pr0 := List.replicate rr.length (List.replicate np (0 : Int)) with hpr0
  have hfirst : ((mkPot amount np rr.length elig side).distribute rr).2
      = (distributeRuns elig rr sh z pr0).1 := rfl
  set r1 := (distributeRuns elig rr sh z pr0).1 with hr1
  have hsecond : ((((mkPot amount np rr.length elig side).distribute rr).1).distribute rr).2
      = (distributeRuns elig rr sh r1 (distributeRuns elig rr sh z pr0).2).1 := rfl
  have hlen1 : r1.length = np := by
    rw [hr1, distributeRuns_fst_length, hz, List.length_replicate]
  have hlenpr : (distributeRuns elig rr sh z pr0).2.length = pr0.length :=
    distributeRuns_snd_length elig rr sh z pr0
  have hsplit : r1 = vadd r1 (List.replicate r1.length 0) := (vadd_zero_right r1).symm
  have hdouble : (distributeRuns elig rr sh r1 (distributeRuns elig rr sh z pr0).2).1
      = vadd r1 r1 := by
    calc (distributeRuns elig rr sh r1 (distributeRuns elig rr sh z pr0).2).1
        = (distributeRuns elig rr sh (vadd r1 (List.replicate r1.length 0))
            (distributeRuns elig rr sh z pr0).2).1 := by rw [← hsplit]
      _ = vadd r1 (distributeRuns elig rr sh (List.replicate r1.length 0)
            (distributeRuns elig rr sh z pr0).2).1 := by
          exact distributeRuns_fst_vadd elig rr sh r1 (List.replicate r1.length 0)
            (distributeRuns elig rr sh z pr0).2 (by rw [List.length_replicate])
      _ = vadd r1 (distributeRuns elig rr sh (List.replicate r1.length 0) pr0).1 := by
          rw [distributeRuns_fst_rows_irrel elig rr sh (List.replicate r1.length 0)
            (distributeRuns elig rr sh z pr0).2 pr0 hlenpr]
      _ = vadd r1 r1 := by rw [hlen1, ← hz, ← hr1]
  have hsum1 : r1.sum = amount := by
    rw [hr1, distributeRuns_fst_sum elig rr sh z pr0
      (by intro i hi; rw [hz, List.length_replicate]; exact hE i hi)
      (by rw [hsh, cascade_length])
      (by rw [hpr0, List.length_replicate]) hcov]
    rw [hsh, cascade_sum _ _ hr, hz]
    simp
  constructor
  · rw [hsecond, hfirst, hdouble, vadd_self_two]
  · rw [hsecond, hdouble, vadd_self_two, map_two_sum, hsum1]

/-- Witness for C9 at a 100-chip single-run pot with a three-way tie. -/
theorem distribute_not_idempotent_witness :
    ((((mkPot 100 3 ([[[0, 1, 2]]] : List (List (List Nat))).length {0, 1, 2} false).distribute
          [[[0, 1, 2]]]).1).distribute [[[0, 1, 2]]]).2
        = (((mkPot 100 3 ([[[0, 1, 2]]] : List (List (List Nat))).length
            {0, 1, 2} false).distribute [[[0, 1, 2]]]).2).map (fun x => 2 * x) ∧
    (((((mkPot 100 3 ([[[0, 1, 2]]] : List (List (List Nat))).length
            {0, 1, 2} false).distribute [[[0, 1, 2]]]).1).distribute [[[0, 1, 2]]]).2).sum
        = 2 * 100 :=
  distribute_not_idempotent 100 3 {0, 1, 2} false [[[0, 1, 2]]]
    (by decide) (by decide) (by decide)
